import Mathlib

/-!
Verification of the RSA-PSS digital-signature demonstration script
(`firma_digital_rsa/firma_rsa.py`).

The script itself is a linear driver: it generates one RSA key pair
(public exponent 65537, 2048-bit modulus), signs a fixed message under
PSS(MGF1(hash), maximal salt length) over a hash of the message, verifies
the signature against the original message, then against a tampered
message, printing a diagnostic line for each step.

The cryptographic primitives live in an external library, out of the
repository's scope, so they are modelled here from the specification's
contracts (RSA-PSS as standardised: EMSA-PSS encoding with MGF1 masking,
RSASP1/RSAVP1 modular exponentiation).  The hash function is an abstract
parameter (a `HashFunc`), standing for SHA-256; every theorem is proved
for all hash functions, hence in particular for SHA-256.  The script's
orchestration (ordering of the calls, exception handling, printed lines)
is embedded directly from the source.
-/

set_option maxRecDepth 10000

/-- Modular exponentiation by binary repeated squaring, with an explicit
fuel argument so that the recursion is structural and kernel-reducible. -/
def powModAux : Nat → Nat → Nat → Nat → Nat
  | 0, _, _, n => 1 % n
  | fuel + 1, b, e, n =>
    if e = 0 then 1 % n
    else
      let r := powModAux fuel b (e / 2) n
      if e % 2 = 1 then r * r % n * b % n else r * r % n

/-- Modelled from the spec: the modular exponentiation `b ^ e % n`
performed by the external cryptography library inside the RSA signature
and verification primitives (RSASP1 / RSAVP1). -/
def powMod (b e n : Nat) : Nat := powModAux (e + 1) b e n

/-- Modelled from the spec: OS2IP, the big-endian octet-string-to-integer
conversion used by the RSA-PSS signature scheme. -/
def OS2IP : List Nat → Nat
  | [] => 0
  | b :: t => b * 256 ^ t.length + OS2IP t

/-- Modelled from the spec: I2OSP, the integer-to-octet-string conversion
producing exactly `k` big-endian bytes. -/
def I2OSP : Nat → Nat → List Nat
  | _, 0 => []
  | x, k + 1 => I2OSP (x / 256) k ++ [x % 256]

/-- Modelled from the spec: byte-wise exclusive or, used by the PSS
masking step. -/
def xorBytes (a b : List Nat) : List Nat := List.zipWith (fun x y => x ^^^ y) a b

/-- Modelled from the spec: set the leftmost `z` bits of the leftmost
octet of an encoded message to zero, as EMSA-PSS requires so that the
encoded message fits in `emBits` bits. -/
def clearHighBits (z : Nat) : List Nat → List Nat
  | [] => []
  | b :: t => b % 2 ^ (8 - z) :: t

/-- Trial-division primality test: `isPrimeFrom fuel d n` checks that no
integer in `[d, sqrt n]` divides `n`, consuming one unit of fuel per
candidate divisor. -/
def isPrimeFrom : Nat → Nat → Nat → Bool
  | 0, _, _ => false
  | fuel + 1, d, n =>
    if n < d * d then true
    else if n % d = 0 then false
    else isPrimeFrom fuel (d + 1) n

/-- Executable primality test by trial division, kernel-reducible. -/
def isPrime (n : Nat) : Bool := 2 ≤ n && isPrimeFrom n 2 n

/-- An abstract cryptographic hash function with a fixed digest length in
bytes; the script instantiates it with SHA-256 (digest length 32). -/
structure HashFunc where
  hLen : Nat
  hash : List Nat → List Nat
  hLen_pos : 0 < hLen
  hash_length : ∀ m, (hash m).length = hLen
  hash_bytes : ∀ m, ∀ b ∈ hash m, b < 256

/-- Modelled from the spec: MGF1, the hash-based mask generation function
used inside PSS to generate pseudorandom masking material. -/
def mgf1 (Hf : HashFunc) (seed : List Nat) (maskLen : Nat) : List Nat :=
  (((List.range ((maskLen + Hf.hLen - 1) / Hf.hLen)).map
      (fun c => Hf.hash (seed ++ I2OSP c 4))).flatten).take maskLen

/-- Modelled from the spec: the inner hash value `H` of an EMSA-PSS
encoding, the digest of eight zero bytes, the message digest and the
salt. -/
def pssH (Hf : HashFunc) (mHash salt : List Nat) : List Nat :=
  Hf.hash (List.replicate 8 0 ++ mHash ++ salt)

/-- Modelled from the spec: the data block `DB = PS ++ 0x01 ++ salt` of an
EMSA-PSS encoding, where `PS` is a run of zero bytes of the length that
pads the block to `emLen - hLen - 1` bytes. -/
def pssDB (hLen emLen : Nat) (salt : List Nat) : List Nat :=
  List.replicate (emLen - salt.length - hLen - 2) 0 ++ [1] ++ salt

/-- Modelled from the spec: EMSA-PSS encoding of a message digest with a
given salt into `emBits` bits.  Fails (`none`, a `SigningError`) when the
intended encoded length cannot hold the digest, the salt and the
separators. -/
def emsa_pss_encode (Hf : HashFunc) (mHash salt : List Nat) (emBits : Nat) :
    Option (List Nat) :=
  let emLen := (emBits + 7) / 8
  if emLen < Hf.hLen + salt.length + 2 then none
  else
    let H := pssH Hf mHash salt
    let maskedDB := clearHighBits (8 * emLen - emBits)
      (xorBytes (pssDB Hf.hLen emLen salt) (mgf1 Hf H (emLen - Hf.hLen - 1)))
    some (maskedDB ++ H ++ [188])

/-- Modelled from the spec: EMSA-PSS verification of an encoded message
against a message digest, recovering the salt from the data block (the
salt length is not fixed in advance, matching the maximal / automatic
salt-length policy the script uses). -/
def emsa_pss_verify (Hf : HashFunc) (mHash em : List Nat) (emBits : Nat) : Bool :=
  let emLen := (emBits + 7) / 8
  if em.length ≠ emLen then false
  else if emLen < Hf.hLen + 2 then false
  else if em.getLast? ≠ some 188 then false
  else
    let maskedDB := em.take (emLen - Hf.hLen - 1)
    let H := (em.drop (emLen - Hf.hLen - 1)).take Hf.hLen
    let z := 8 * emLen - emBits
    if 2 ^ (8 - z) ≤ maskedDB.headD 0 then false
    else
      let db := clearHighBits z (xorBytes maskedDB (mgf1 Hf H (emLen - Hf.hLen - 1)))
      match db.dropWhile (fun b => b == 0) with
      | [] => false
      | b :: salt =>
        if b ≠ 1 then false
        else Hf.hash (List.replicate 8 0 ++ mHash ++ salt) == H

/-- An RSA public key: modulus and public exponent. -/
structure RSAPub where
  n : Nat
  e : Nat
deriving DecidableEq

/-- An RSA private key, keeping the two primes so that validity can be
stated; the public components are carried alongside, as the library's
private-key object does. -/
structure RSAPriv where
  p : Nat
  q : Nat
  n : Nat
  e : Nat
  d : Nat
deriving DecidableEq

/-- Derivation of the public key from the private key, embedding the
script's `private_key.public_key()` call. -/
def RSAPriv.public_key (k : RSAPriv) : RSAPub := RSAPub.mk k.n k.e

/-- Modelled from the spec: well-formedness of a freshly generated RSA key
pair with the given modulus size in bits — two distinct primes whose
product is the modulus, the modulus of exactly `modBits` bits, and the
private exponent inverse to the public exponent modulo
`lcm (p-1) (q-1)`. -/
def validKey (k : RSAPriv) (modBits : Nat) : Prop :=
  isPrime k.p = true ∧ isPrime k.q = true ∧ k.p ≠ k.q ∧ k.n = k.p * k.q ∧
  2 ^ (modBits - 1) ≤ k.n ∧ k.n < 2 ^ modBits ∧
  k.e * k.d % Nat.lcm (k.p - 1) (k.q - 1) = 1

instance decValidKey (k : RSAPriv) (modBits : Nat) : Decidable (validKey k modBits) := by
  unfold validKey
  infer_instance

/-- Modelled from the spec: RSA-PSS signing — EMSA-PSS-encode the message
digest with the drawn salt into `modBits - 1` bits, then apply the RSA
private-key operation and convert to a signature of exactly
`(modBits + 7) / 8` bytes.  The salt is the signing operation's internal
randomness, passed explicitly. -/
def pssSign (Hf : HashFunc) (k : RSAPriv) (modBits : Nat) (msg salt : List Nat) :
    Option (List Nat) :=
  match emsa_pss_encode Hf (Hf.hash msg) salt (modBits - 1) with
  | none => none
  | some em => some (I2OSP (powMod (OS2IP em) k.d k.n) ((modBits + 7) / 8))

/-- Modelled from the spec: the encoded message recovered from a signature
by the RSA public-key operation during verification. -/
def decodeEM (pk : RSAPub) (modBits : Nat) (sig : List Nat) : List Nat :=
  I2OSP (powMod (OS2IP sig) pk.e pk.n) ((modBits - 1 + 7) / 8)

/-- Modelled from the spec: RSA-PSS verification — check the signature
length, apply the RSA public-key operation and EMSA-PSS-verify the
recovered encoded message against the message digest.  Returns a pure
pass / fail decision. -/
def pssVerify (Hf : HashFunc) (pk : RSAPub) (modBits : Nat) (msg sig : List Nat) :
    Bool :=
  if sig.length ≠ (modBits + 7) / 8 then false
  else if pk.n ≤ OS2IP sig then false
  else if 256 ^ ((modBits - 1 + 7) / 8) ≤ powMod (OS2IP sig) pk.e pk.n then false
  else emsa_pss_verify Hf (Hf.hash msg) (decodeEM pk modBits sig) (modBits - 1)

/-- The script's public exponent argument to the key generator. -/
def script_public_exponent : Nat := 65537

/-- The script's key size argument to the key generator, in bits. -/
def script_key_size : Nat := 2048

/-- The script's original message, the UTF-8 bytes of
"Este es el mensaje que quiero firmar digitalmente.". -/
def script_message : List Nat :=
  [69, 115, 116, 101, 32, 101, 115, 32, 101, 108, 32, 109, 101, 110, 115, 97,
   106, 101, 32, 113, 117, 101, 32, 113, 117, 105, 101, 114, 111, 32, 102, 105,
   114, 109, 97, 114, 32, 100, 105, 103, 105, 116, 97, 108, 109, 101, 110, 116,
   101, 46]

/-- The script's tampered message, the UTF-8 bytes of
"Este es un mensaje modificado.". -/
def script_message_altered : List Nat :=
  [69, 115, 116, 101, 32, 101, 115, 32, 117, 110, 32, 109, 101, 110, 115, 97,
   106, 101, 32, 109, 111, 100, 105, 102, 105, 99, 97, 100, 111, 46]

/-- A Python exception value, as far as the script can observe one: the
library's `InvalidSignature`, or any other exception class.  All of them
are subclasses of `Exception`. -/
inductive PyExn where
  | invalidSignature : PyExn
  | typeError : String → PyExn
  | valueError : String → PyExn
  | otherError : String → PyExn
deriving DecidableEq

/-- One line of the script's standard output, one constructor per `print`
site of the source. -/
inductive ScriptLine where
  | starting : ScriptLine
  | keysGenerated : ScriptLine
  | originalMessage : List Nat → ScriptLine
  | signaturePreview : List Nat → ScriptLine
  | verifiedOk : ScriptLine
  | verifyError : PyExn → ScriptLine
  | tamperedHeader : List Nat → ScriptLine
  | tamperedAccepted : ScriptLine
  | tamperedRejected : PyExn → ScriptLine
  | completed : ScriptLine
deriving DecidableEq

/-- Python's `try / except C` statement around an expression: if the
expression raises an exception that the clause's class `C` catches, the
handler line is produced; an uncaught exception propagates. -/
def tryExcept (r : Except PyExn Unit) (catches : PyExn → Bool)
    (okLine : ScriptLine) (errLine : PyExn → ScriptLine) :
    Except PyExn ScriptLine :=
  match r with
  | Except.ok _ => Except.ok okLine
  | Except.error e => if catches e then Except.ok (errLine e) else Except.error e

/-- The catch predicate of an `except Exception` clause, which both of the
script's handlers use: every exception is an `Exception`, so every
exception is caught. -/
def exceptException : PyExn → Bool := fun _ => true

/-- The library's `public_key.verify` call as the script observes it: it
either returns `None` or raises `InvalidSignature`; the decision itself is
the pure `pssVerify`. -/
def libVerify (Hf : HashFunc) (pk : RSAPub) (modBits : Nat) (msg sig : List Nat) :
    Except PyExn Unit :=
  if pssVerify Hf pk modBits msg sig then Except.ok () else
    Except.error PyExn.invalidSignature

/-- The sequence of lines the script prints, given the signature preview
and the outcome of each of the two verification calls.  A verification
outcome that its `except Exception` handler did not catch would end the
run early (no further lines). -/
def scriptLines (preview : List Nat) (v1 v2 : Except PyExn Unit) :
    List ScriptLine :=
  [ScriptLine.starting, ScriptLine.keysGenerated,
   ScriptLine.originalMessage script_message,
   ScriptLine.signaturePreview preview] ++
  (match tryExcept v1 exceptException ScriptLine.verifiedOk
      ScriptLine.verifyError with
   | Except.error _ => []
   | Except.ok l1 =>
     [l1, ScriptLine.tamperedHeader script_message_altered] ++
     (match tryExcept v2 exceptException ScriptLine.tamperedAccepted
         ScriptLine.tamperedRejected with
      | Except.error _ => []
      | Except.ok l2 => [l2, ScriptLine.completed]))

/-- The arguments of one `public_key.verify` call. -/
structure VerifyCall where
  pk : RSAPub
  msg : List Nat
  sig : List Nat
deriving DecidableEq

/-- The observable trace of one run of the script: the arguments of every
key-generation, signing and verification call, and the printed lines. -/
structure ScriptTrace where
  genCalls : List (Nat × Nat)
  signKeys : List RSAPriv
  verifyCalls : List VerifyCall
  lines : List ScriptLine

/-- The script's local variables after the signing step; the two
verification calls read them and leave them unchanged. -/
structure ScriptState where
  private_key : RSAPriv
  public_key : RSAPub
  message : List Nat
  signature : List Nat

/-- The whole script, embedded step by step from the source: generate one
key pair with public exponent 65537 and key size 2048, derive the public
key, sign the fixed message, verify against the original message, verify
against the tampered message, print the narration.  `gen` is the key
generator (the library's randomness), `salt` the salt PSS draws inside
the signing call.  A signing failure propagates (`none`): the script has
no handler around `private_key.sign`. -/
def runScript (Hf : HashFunc) (gen : Nat → Nat → RSAPriv) (salt : List Nat) :
    Option (ScriptTrace × ScriptState) :=
  let private_key := gen script_public_exponent script_key_size
  let public_key := private_key.public_key
  let message := script_message
  match pssSign Hf private_key script_key_size message salt with
  | none => none
  | some signature =>
    let v1 := libVerify Hf public_key script_key_size message signature
    let v2 := libVerify Hf public_key script_key_size script_message_altered
      signature
    some (ScriptTrace.mk
        [(script_public_exponent, script_key_size)]
        [private_key]
        [VerifyCall.mk public_key message signature,
         VerifyCall.mk public_key script_message_altered signature]
        (scriptLines (signature.take 30) v1 v2),
      ScriptState.mk private_key public_key message signature)

/-- A concrete one-byte-digest hash function, used to instantiate the
abstract `HashFunc` parameter in witnesses. -/
def toyHashF : HashFunc where
  hLen := 1
  hash := fun l => [(l.foldl (fun a b => a * 31 + b) 7) % 256]
  hLen_pos := Nat.one_pos
  hash_length := fun _ => rfl
  hash_bytes := by
    intro m b hb
    simp only [List.mem_singleton] at hb
    subst hb
    exact Nat.mod_lt _ (by norm_num)

/-- A concrete valid RSA key pair with a 26-bit modulus, used in
witnesses. -/
def witKey : RSAPriv := RSAPriv.mk 5861 5867 34386487 65537 6080373

/-- A second, independently chosen concrete valid RSA key pair with a
26-bit modulus, used in the cross-key witness. -/
def witKey2 : RSAPriv := RSAPriv.mk 5861 5869 34398209 65537 2540933

/-- The modulus size in bits of the concrete witness keys. -/
def witModBits : Nat := 26

/-- A concrete salt of the maximal length for the witness parameters. -/
def witSalt : List Nat := [42]

/-- A second concrete salt, distinct from `witSalt`. -/
def witSaltB : List Nat := [43]

/-- A syntactically well-typed but cryptographically meaningless private
key; witnesses about signature length and script structure use it, since
those facts hold for any key object. -/
def junkKey : RSAPriv := RSAPriv.mk 2 3 6 3 3

/-- A key generator oracle that returns `junkKey` for any parameters. -/
def junkGen : Nat → Nat → RSAPriv := fun _ _ => junkKey

/-- The concrete trace and state of one full run of the embedded script,
with the toy hash, the junk key generator and an empty salt. -/
def runW : ScriptTrace × ScriptState :=
  (runScript toyHashF junkGen []).getD
    (ScriptTrace.mk [] [] [] [],
     ScriptState.mk junkKey junkKey.public_key [] [])

/-- The concrete signature of one 2048-bit signing call with the toy hash
and the junk key, used in witnesses about signature length. -/
def witSig2048 : List Nat :=
  (pssSign toyHashF junkKey 2048 script_message []).getD []

/-- The fueled modular-exponentiation loop computes `b ^ e % n` whenever
the fuel exceeds the exponent. -/
theorem powModAux_eq (b n : Nat) :
    ∀ fuel e, e < fuel → powModAux fuel b e n = b ^ e % n := by
  intro fuel
  induction fuel with
  | zero => intro e he; exact absurd he (Nat.not_lt_zero e)
  | succ fuel ih =>
    intro e he
    by_cases h0 : e = 0
    · subst h0; simp [powModAux]
    · have hdiv : e / 2 < fuel := by
        have h2 : e / 2 < e := Nat.div_lt_self (Nat.pos_of_ne_zero h0) (by omega)
        omega
      obtain ⟨k, hk⟩ : ∃ k, e / 2 = k := ⟨_, rfl⟩
      have hr := ih (e / 2) hdiv
      rw [hk] at hr
      simp only [powModAux, if_neg h0, hk, hr]
      by_cases hodd : e % 2 = 1
      · simp only [if_pos hodd]
        have he2 : e = k + k + 1 := by omega
        rw [he2, pow_add, pow_add, pow_one]
        have h1 : b ^ k % n * (b ^ k % n) % n ≡ b ^ k * b ^ k [MOD n] :=
          (Nat.mod_modEq _ n).trans ((Nat.mod_modEq _ n).mul (Nat.mod_modEq _ n))
        exact h1.mul_right b
      · simp only [if_neg hodd]
        have he2 : e = k + k := by omega
        rw [he2, pow_add]
        exact (Nat.mod_modEq _ n).mul (Nat.mod_modEq _ n)

/-- The modelled RSA primitive is plain modular exponentiation. -/
theorem powMod_eq (b e n : Nat) : powMod b e n = b ^ e % n :=
  powModAux_eq b n (e + 1) e (Nat.lt_succ_self e)

/-- The RSA primitive's output lies below the modulus. -/
theorem powMod_lt (b e n : Nat) (hn : 0 < n) : powMod b e n < n := by
  rw [powMod_eq]; exact Nat.mod_lt _ hn

/-- Soundness of the trial-division loop: if it reports success starting
at candidate divisor `d`, then no `m ≥ d` with `m * m ≤ n` divides `n`. -/
theorem isPrimeFrom_sound :
    ∀ fuel d n, 1 ≤ d → isPrimeFrom fuel d n = true →
      ∀ m, d ≤ m → m * m ≤ n → ¬ m ∣ n := by
  intro fuel
  induction fuel with
  | zero => intro d n _ h; simp [isPrimeFrom] at h
  | succ fuel ih =>
    intro d n hd h m hdm hmm hdvd
    by_cases hlt : n < d * d
    · have : d * d ≤ m * m := Nat.mul_le_mul hdm hdm
      omega
    · rw [isPrimeFrom, if_neg hlt] at h
      by_cases hm0 : n % d = 0
      · simp [hm0] at h
      · rw [if_neg hm0] at h
        rcases Nat.eq_or_lt_of_le hdm with heq | hgt
        · exact hm0 (Nat.dvd_iff_mod_eq_zero.mp (heq ▸ hdvd))
        · exact ih (d + 1) n (by omega) h m hgt hmm hdvd

/-- Completeness of the trial-division loop: with positive fuel covering
the range up to `n`, it succeeds whenever no candidate divisor from `d`
up divides `n`. -/
theorem isPrimeFrom_complete :
    ∀ fuel d n, 2 ≤ d → 0 < fuel → n < d + fuel →
      (∀ m, d ≤ m → m * m ≤ n → ¬ m ∣ n) → isPrimeFrom fuel d n = true := by
  intro fuel
  induction fuel with
  | zero => intro d n _ hpos; exact absurd hpos (by omega)
  | succ fuel ih =>
    intro d n hd _ hlt hnd
    rw [isPrimeFrom]
    by_cases h1 : n < d * d
    · simp [h1]
    · have hdd : d * d ≤ n := by omega
      have hmod : ¬ n % d = 0 := by
        intro h0
        exact hnd d le_rfl hdd (Nat.dvd_iff_mod_eq_zero.mpr h0)
      rw [if_neg h1, if_neg hmod]
      have hfuel : 0 < fuel := by
        by_contra hf
        have hf0 : fuel = 0 := by omega
        subst hf0
        have h2 : d * d ≤ d * 1 := by omega
        have h3 : d ≤ 1 := Nat.le_of_mul_le_mul_left h2 (by omega)
        omega
      exact ih (d + 1) n (by omega) hfuel (by omega)
        (fun m hm => hnd m (by omega))

/-- The executable primality test agrees with `Nat.Prime`. -/
theorem isPrime_iff (n : Nat) : isPrime n = true ↔ n.Prime := by
  constructor
  · intro h
    simp only [isPrime, Bool.and_eq_true, decide_eq_true_eq] at h
    obtain ⟨h2, hloop⟩ := h
    rw [Nat.prime_def_le_sqrt]
    refine ⟨h2, fun m hm hms => ?_⟩
    exact isPrimeFrom_sound n 2 n (by omega) hloop m hm (Nat.le_sqrt.mp hms)
  · intro hp
    simp only [isPrime, Bool.and_eq_true, decide_eq_true_eq]
    refine ⟨hp.two_le, ?_⟩
    refine isPrimeFrom_complete n 2 n le_rfl (by have := hp.two_le; omega)
      (by omega) ?_
    intro m hm hmm hdvd
    exact (Nat.prime_def_le_sqrt.mp hp).2 m hm (Nat.le_sqrt.mpr hmm) hdvd

/-- Fermat consequence: modulo a prime `p`, raising to the power `c + 1`
with `(p - 1) ∣ c` is the identity map. -/
theorem prime_pow_modEq (p c m : Nat) (hp : p.Prime) (hd : (p - 1) ∣ c) :
    m ^ (c + 1) ≡ m [MOD p] := by
  haveI : Fact p.Prime := ⟨hp⟩
  rw [← ZMod.natCast_eq_natCast_iff]
  push_cast
  by_cases h0 : (m : ZMod p) = 0
  · rw [h0, zero_pow (by omega)]
  · obtain ⟨t, ht⟩ := hd
    rw [pow_succ, ht, pow_mul, ZMod.pow_card_sub_one_eq_one h0, one_pow, one_mul]

/-- RSA core congruence: for distinct primes `p`, `q` and an exponent
`c + 1` with `lcm (p-1) (q-1) ∣ c`, raising to the power `c + 1` is the
identity modulo `p * q`. -/
theorem rsa_pow_modEq (p q c m : Nat) (hp : p.Prime) (hq : q.Prime)
    (hpq : p ≠ q) (hd : Nat.lcm (p - 1) (q - 1) ∣ c) :
    m ^ (c + 1) ≡ m [MOD p * q] := by
  have hco : Nat.Coprime p q := (Nat.coprime_primes hp hq).mpr hpq
  refine (Nat.modEq_and_modEq_iff_modEq_mul hco).mp ⟨?_, ?_⟩
  · exact prime_pow_modEq p c m hp (dvd_trans (Nat.dvd_lcm_left _ _) hd)
  · exact prime_pow_modEq q c m hq (dvd_trans (Nat.dvd_lcm_right _ _) hd)

/-- RSA correctness for a valid key: the public-key operation inverts the
private-key operation on any residue below the modulus. -/
theorem rsa_roundtrip (k : RSAPriv) (modBits : Nat) (hk : validKey k modBits)
    (m : Nat) (hm : m < k.n) :
    powMod (powMod m k.d k.n) k.e k.n = m := by
  obtain ⟨hp, hq, hpq, hn, _, _, hed⟩ := hk
  rw [powMod_eq, powMod_eq, ← Nat.pow_mod, ← pow_mul, Nat.mul_comm k.d k.e]
  have hc : k.e * k.d =
      Nat.lcm (k.p - 1) (k.q - 1) * (k.e * k.d / Nat.lcm (k.p - 1) (k.q - 1)) + 1 := by
    have hdm := Nat.div_add_mod (k.e * k.d) (Nat.lcm (k.p - 1) (k.q - 1))
    omega
  rw [hc, hn]
  have hmod := rsa_pow_modEq k.p k.q
    (Nat.lcm (k.p - 1) (k.q - 1) * (k.e * k.d / Nat.lcm (k.p - 1) (k.q - 1))) m
    ((isPrime_iff _).mp hp) ((isPrime_iff _).mp hq) hpq (Dvd.intro _ rfl)
  calc m ^ (Nat.lcm (k.p - 1) (k.q - 1) *
        (k.e * k.d / Nat.lcm (k.p - 1) (k.q - 1)) + 1) % (k.p * k.q)
      = m % (k.p * k.q) := hmod
    _ = m := Nat.mod_eq_of_lt (hn ▸ hm)

/-- The RSA private-key operation of a valid key is injective on residues
below the modulus. -/
theorem powMod_d_inj (k : RSAPriv) (modBits : Nat) (hk : validKey k modBits)
    (m1 m2 : Nat) (h1 : m1 < k.n) (h2 : m2 < k.n)
    (h : powMod m1 k.d k.n = powMod m2 k.d k.n) : m1 = m2 := by
  have e1 := rsa_roundtrip k modBits hk m1 h1
  have e2 := rsa_roundtrip k modBits hk m2 h2
  rw [← e1, ← e2, h]

/-- Big-endian value of a concatenation of byte lists. -/
theorem OS2IP_append (a b : List Nat) :
    OS2IP (a ++ b) = OS2IP a * 256 ^ b.length + OS2IP b := by
  induction a with
  | nil => simp [OS2IP]
  | cons x t ih =>
    simp only [List.cons_append, OS2IP, List.append_eq, List.length_append, ih]
    ring

/-- Bound on the big-endian value of a byte list. -/
theorem OS2IP_lt (l : List Nat) (h : ∀ b ∈ l, b < 256) :
    OS2IP l < 256 ^ l.length := by
  induction l with
  | nil => simp [OS2IP]
  | cons x t ih =>
    simp only [OS2IP, List.length_cons]
    have hx : x < 256 := h x (by simp)
    have ht : OS2IP t < 256 ^ t.length := ih (fun b hb => h b (by simp [hb]))
    calc x * 256 ^ t.length + OS2IP t
        < x * 256 ^ t.length + 256 ^ t.length := by omega
      _ = (x + 1) * 256 ^ t.length := by ring
      _ ≤ 256 * 256 ^ t.length := Nat.mul_le_mul_right _ (by omega)
      _ = 256 ^ (t.length + 1) := by ring

/-- Refined bound on the value when the leading byte is below `2 ^ w`. -/
theorem OS2IP_cons_lt (x : Nat) (t : List Nat) (w : Nat) (hx : x < 2 ^ w)
    (ht : ∀ b ∈ t, b < 256) :
    OS2IP (x :: t) < 2 ^ w * 256 ^ t.length := by
  simp only [OS2IP]
  have h2 := OS2IP_lt t ht
  calc x * 256 ^ t.length + OS2IP t
      < x * 256 ^ t.length + 256 ^ t.length := by omega
    _ = (x + 1) * 256 ^ t.length := by ring
    _ ≤ 2 ^ w * 256 ^ t.length := Nat.mul_le_mul_right _ (by omega)

/-- I2OSP always produces exactly `k` bytes. -/
theorem I2OSP_length (x k : Nat) : (I2OSP x k).length = k := by
  induction k generalizing x with
  | zero => rfl
  | succ k ih => simp [I2OSP, ih]

/-- I2OSP only produces values below 256. -/
theorem I2OSP_bytes (x k : Nat) : ∀ b ∈ I2OSP x k, b < 256 := by
  induction k generalizing x with
  | zero => intro b hb; simp [I2OSP] at hb
  | succ k ih =>
    intro b hb
    simp only [I2OSP, List.mem_append, List.mem_singleton] at hb
    rcases hb with hb | hb
    · exact ih (x / 256) b hb
    · exact hb ▸ Nat.mod_lt _ (by norm_num)

/-- The octet-string round trip recovers any value below `256 ^ k`. -/
theorem OS2IP_I2OSP (k x : Nat) (h : x < 256 ^ k) : OS2IP (I2OSP x k) = x := by
  induction k generalizing x with
  | zero =>
    have hx : x = 0 := by simpa using h
    rw [hx]; rfl
  | succ k ih =>
    rw [I2OSP, OS2IP_append]
    have hdiv : x / 256 < 256 ^ k := by
      rw [Nat.div_lt_iff_lt_mul (by norm_num)]
      calc x < 256 ^ (k + 1) := h
        _ = 256 ^ k * 256 := by ring
    rw [ih (x / 256) hdiv]
    simp only [List.length_singleton, OS2IP, List.length_nil, pow_zero, pow_one]
    omega

/-- The integer round trip recovers any byte list. -/
theorem I2OSP_OS2IP (l : List Nat) (h : ∀ b ∈ l, b < 256) :
    I2OSP (OS2IP l) l.length = l := by
  induction l using List.reverseRecOn with
  | nil => rfl
  | append_singleton a x ih =>
    rw [OS2IP_append]
    simp only [List.length_append, List.length_singleton]
    rw [I2OSP]
    have hx : x < 256 := h x (by simp)
    have hv : OS2IP [x] = x := by simp [OS2IP]
    rw [hv]
    have h1 : (OS2IP a * 256 ^ 1 + x) / 256 = OS2IP a := by
      rw [pow_one]; omega
    have h2 : (OS2IP a * 256 ^ 1 + x) % 256 = x := by
      rw [pow_one]; omega
    rw [h1, h2, ih (fun b hb => h b (by simp [hb]))]

/-- I2OSP is injective on values below `256 ^ k`. -/
theorem I2OSP_inj (k x y : Nat) (hx : x < 256 ^ k) (hy : y < 256 ^ k)
    (h : I2OSP x k = I2OSP y k) : x = y := by
  rw [← OS2IP_I2OSP k x hx, ← OS2IP_I2OSP k y hy, h]

/-- OS2IP is injective on byte lists of equal length. -/
theorem OS2IP_inj (a b : List Nat) (ha : ∀ x ∈ a, x < 256)
    (hb : ∀ x ∈ b, x < 256) (hlen : a.length = b.length)
    (h : OS2IP a = OS2IP b) : a = b := by
  rw [← I2OSP_OS2IP a ha, ← I2OSP_OS2IP b hb, hlen, h]

/-- Length of a byte-wise exclusive or. -/
theorem xorBytes_length (a b : List Nat) :
    (xorBytes a b).length = min a.length b.length := by
  simp [xorBytes]

/-- Masking twice with the same mask is the identity. -/
theorem xorBytes_cancel (a b : List Nat) (h : a.length ≤ b.length) :
    xorBytes (xorBytes a b) b = a := by
  induction a generalizing b with
  | nil => simp [xorBytes]
  | cons x t ih =>
    cases b with
    | nil => simp at h
    | cons y s =>
      simp only [xorBytes, List.zipWith_cons_cons]
      rw [Nat.xor_cancel_right]
      have hts : t.length ≤ s.length := by simp at h; omega
      have := ih s hts
      simp only [xorBytes] at this
      rw [this]

/-- A byte-wise exclusive or of byte lists is a byte list. -/
theorem xorBytes_bytes (a b : List Nat) (ha : ∀ x ∈ a, x < 256)
    (hb : ∀ x ∈ b, x < 256) : ∀ x ∈ xorBytes a b, x < 256 := by
  induction a generalizing b with
  | nil => intro x hx; simp [xorBytes] at hx
  | cons y t ih =>
    cases b with
    | nil => intro x hx; simp [xorBytes] at hx
    | cons z s =>
      intro x hx
      simp only [xorBytes, List.zipWith_cons_cons, List.mem_cons] at hx
      rcases hx with hx | hx
      · have h8 : (256 : Nat) = 2 ^ 8 := by norm_num
        rw [hx, h8]
        exact Nat.xor_lt_two_pow (h8 ▸ ha y (by simp)) (h8 ▸ hb z (by simp))
      · exact ih s (fun u hu => ha u (by simp [hu]))
          (fun u hu => hb u (by simp [hu])) x hx

/-- Reducing modulo `2 ^ w` commutes with exclusive or, modulo `2 ^ w`. -/
theorem mod_two_pow_xor (x y w : Nat) :
    (x % 2 ^ w ^^^ y) % 2 ^ w = (x ^^^ y) % 2 ^ w := by
  apply Nat.eq_of_testBit_eq
  intro i
  simp only [Nat.testBit_mod_two_pow, Nat.testBit_xor]
  by_cases hi : i < w
  · simp [hi]
  · simp [hi]

/-- Clearing the high bits of a masked byte, unmasking and clearing again
recovers a byte whose high bits were already clear. -/
theorem clear_xor_clear (w x y : Nat) (hx : x < 2 ^ w) :
    ((x ^^^ y) % 2 ^ w ^^^ y) % 2 ^ w = x := by
  rw [mod_two_pow_xor, Nat.xor_cancel_right]
  exact Nat.mod_eq_of_lt hx

/-- Unmasking a masked-and-truncated data block recovers it, provided its
leading byte already had its high bits clear. -/
theorem unmask_roundtrip (z : Nat) (db mask : List Nat)
    (hlen : db.length = mask.length) (hhd : db.headD 0 < 2 ^ (8 - z)) :
    clearHighBits z (xorBytes (clearHighBits z (xorBytes db mask)) mask) = db := by
  cases db with
  | nil => rfl
  | cons x t =>
    cases mask with
    | nil => simp at hlen
    | cons y s =>
      simp only [List.headD_cons] at hhd
      simp only [xorBytes, List.zipWith_cons_cons, clearHighBits]
      rw [clear_xor_clear (8 - z) x y hhd]
      have hts : t.length ≤ s.length := by simp at hlen; omega
      have := xorBytes_cancel t s hts
      simp only [xorBytes] at this
      rw [this]

/-- Dropping the leading zero padding of a data block exposes the `0x01`
separator and the salt. -/
theorem dropWhile_replicate_zero (k : Nat) (salt : List Nat) :
    (List.replicate k 0 ++ 1 :: salt).dropWhile (fun b => b == 0) = 1 :: salt := by
  induction k with
  | zero => simp [List.dropWhile_cons]
  | succ k ih => simp [List.replicate_succ, List.dropWhile_cons, ih]

/-- MGF1 produces exactly the requested number of mask bytes. -/
theorem mgf1_length (Hf : HashFunc) (seed : List Nat) (maskLen : Nat) :
    (mgf1 Hf seed maskLen).length = maskLen := by
  have hsum : (((List.range ((maskLen + Hf.hLen - 1) / Hf.hLen)).map
      (fun c => Hf.hash (seed ++ I2OSP c 4))).flatten).length
      = ((maskLen + Hf.hLen - 1) / Hf.hLen) * Hf.hLen := by
    rw [List.length_flatten, List.map_map]
    have hcomp : (List.length ∘ fun c => Hf.hash (seed ++ I2OSP c 4))
        = fun _ => Hf.hLen := by
      funext c
      exact Hf.hash_length _
    rw [hcomp, List.map_const', List.length_range, List.sum_const_nat]
  simp only [mgf1, List.length_take, hsum]
  have hpos := Hf.hLen_pos
  have hdm := Nat.div_add_mod (maskLen + Hf.hLen - 1) Hf.hLen
  have hmod := Nat.mod_lt (maskLen + Hf.hLen - 1) hpos
  have hge : maskLen ≤ ((maskLen + Hf.hLen - 1) / Hf.hLen) * Hf.hLen := by
    rw [Nat.mul_comm]
    omega
  omega

/-- MGF1 only produces byte values. -/
theorem mgf1_bytes (Hf : HashFunc) (seed : List Nat) (maskLen : Nat) :
    ∀ b ∈ mgf1 Hf seed maskLen, b < 256 := by
  intro b hb
  simp only [mgf1] at hb
  have hb2 := List.take_subset _ _ hb
  rw [List.mem_flatten] at hb2
  obtain ⟨l, hl, hbl⟩ := hb2
  rw [List.mem_map] at hl
  obtain ⟨c, _, rfl⟩ := hl
  exact Hf.hash_bytes _ b hbl

/-- Clearing high bits preserves the length of the list. -/
theorem clearHighBits_length (z : Nat) (l : List Nat) :
    (clearHighBits z l).length = l.length := by
  cases l with
  | nil => rfl
  | cons x t => rfl

/-- Clearing high bits preserves being a byte list. -/
theorem clearHighBits_bytes (z : Nat) (l : List Nat) (h : ∀ b ∈ l, b < 256) :
    ∀ b ∈ clearHighBits z l, b < 256 := by
  cases l with
  | nil => intro b hb; simp [clearHighBits] at hb
  | cons x t =>
    intro b hb
    simp only [clearHighBits, List.mem_cons] at hb
    rcases hb with hb | hb
    · have h1 : x % 2 ^ (8 - z) < 2 ^ (8 - z) :=
        Nat.mod_lt _ (Nat.pos_pow_of_pos _ (by norm_num))
      have h2 : (2 : Nat) ^ (8 - z) ≤ 2 ^ 8 :=
        Nat.pow_le_pow_right (by norm_num) (by omega)
      omega
    · exact h b (by simp [hb])

/-- The head of a list with cleared high bits is below `2 ^ (8 - z)`. -/
theorem clearHighBits_headD (z : Nat) (l : List Nat) (hne : l ≠ []) :
    (clearHighBits z l).headD 0 < 2 ^ (8 - z) := by
  cases l with
  | nil => exact absurd rfl hne
  | cons x t =>
    simp only [clearHighBits, List.headD_cons]
    exact Nat.mod_lt _ (Nat.pos_pow_of_pos _ (by norm_num))

/-- Length of the PSS data block. -/
theorem pssDB_length (hLen emLen : Nat) (salt : List Nat)
    (h : hLen + salt.length + 2 ≤ emLen) :
    (pssDB hLen emLen salt).length = emLen - hLen - 1 := by
  simp only [pssDB, List.length_append, List.length_replicate,
    List.length_singleton]
  omega

/-- The PSS data block is a byte list. -/
theorem pssDB_bytes (hLen emLen : Nat) (salt : List Nat)
    (hsalt : ∀ b ∈ salt, b < 256) :
    ∀ b ∈ pssDB hLen emLen salt, b < 256 := by
  intro b hb
  simp only [pssDB, List.mem_append, List.mem_replicate,
    List.mem_singleton] at hb
  rcases hb with (hb | hb) | hb
  · omega
  · omega
  · exact hsalt b hb

/-- The head of the PSS data block is zero or one. -/
theorem pssDB_headD (hLen emLen : Nat) (salt : List Nat) :
    (pssDB hLen emLen salt).headD 0 ≤ 1 := by
  simp only [pssDB]
  cases hc : emLen - salt.length - hLen - 2 with
  | zero => simp
  | succ c => simp [List.replicate_succ]

/-- The PSS data block is nonempty. -/
theorem pssDB_ne_nil (hLen emLen : Nat) (salt : List Nat) :
    pssDB hLen emLen salt ≠ [] := by
  simp only [pssDB]
  cases hc : emLen - salt.length - hLen - 2 with
  | zero => simp
  | succ c => simp [List.replicate_succ]

/-- Unfolding characterisation of a successful EMSA-PSS encoding. -/
theorem encode_eq_some (Hf : HashFunc) (mH salt : List Nat) (emBits : Nat)
    (em : List Nat) :
    emsa_pss_encode Hf mH salt emBits = some em ↔
      Hf.hLen + salt.length + 2 ≤ (emBits + 7) / 8 ∧
      em = clearHighBits (8 * ((emBits + 7) / 8) - emBits)
          (xorBytes (pssDB Hf.hLen ((emBits + 7) / 8) salt)
            (mgf1 Hf (pssH Hf mH salt) ((emBits + 7) / 8 - Hf.hLen - 1)))
        ++ pssH Hf mH salt ++ [188] := by
  simp only [emsa_pss_encode]
  by_cases hc : (emBits + 7) / 8 < Hf.hLen + salt.length + 2
  · rw [if_pos hc]
    constructor
    · intro h; exact absurd h (by simp)
    · rintro ⟨h1, _⟩; omega
  · rw [if_neg hc]
    simp only [Option.some.injEq]
    constructor
    · intro h; exact ⟨by omega, h.symm⟩
    · rintro ⟨_, h⟩; exact h.symm

/-- Shape facts about a successful EMSA-PSS encoding: its length, its
byte range and its value bound below `2 ^ emBits`. -/
theorem encode_shape (Hf : HashFunc) (mH salt : List Nat) (emBits : Nat)
    (em : List Nat) (hsalt : ∀ b ∈ salt, b < 256)
    (henc : emsa_pss_encode Hf mH salt emBits = some em) :
    em.length = (emBits + 7) / 8 ∧ (∀ b ∈ em, b < 256) ∧
      OS2IP em < 2 ^ emBits := by
  obtain ⟨hle, hem⟩ := (encode_eq_some Hf mH salt emBits em).mp henc
  have hLpos := Hf.hLen_pos
  have hdm8 := Nat.div_add_mod (emBits + 7) 8
  have hm8 := Nat.mod_lt (emBits + 7) (show 0 < 8 by norm_num)
  have hdb := pssDB_length Hf.hLen ((emBits + 7) / 8) salt hle
  have hmask := mgf1_length Hf (pssH Hf mH salt) ((emBits + 7) / 8 - Hf.hLen - 1)
  have hxor : (xorBytes (pssDB Hf.hLen ((emBits + 7) / 8) salt)
      (mgf1 Hf (pssH Hf mH salt) ((emBits + 7) / 8 - Hf.hLen - 1))).length
      = (emBits + 7) / 8 - Hf.hLen - 1 := by
    rw [xorBytes_length, hdb, hmask, Nat.min_self]
  have hmdbL : (clearHighBits (8 * ((emBits + 7) / 8) - emBits)
      (xorBytes (pssDB Hf.hLen ((emBits + 7) / 8) salt)
        (mgf1 Hf (pssH Hf mH salt) ((emBits + 7) / 8 - Hf.hLen - 1)))).length
      = (emBits + 7) / 8 - Hf.hLen - 1 := by
    rw [clearHighBits_length, hxor]
  have hH : (pssH Hf mH salt).length = Hf.hLen := Hf.hash_length _
  have hlen : em.length = (emBits + 7) / 8 := by
    rw [hem]
    simp only [List.length_append, hmdbL, hH, List.length_singleton]
    omega
  have hdbB := pssDB_bytes Hf.hLen ((emBits + 7) / 8) salt hsalt
  have hmaskB := mgf1_bytes Hf (pssH Hf mH salt) ((emBits + 7) / 8 - Hf.hLen - 1)
  have hxorB := xorBytes_bytes _ _ hdbB hmaskB
  have hmdbB := clearHighBits_bytes (8 * ((emBits + 7) / 8) - emBits) _ hxorB
  have hbytes : ∀ b ∈ em, b < 256 := by
    rw [hem]
    intro b hb
    simp only [List.mem_append, List.mem_singleton] at hb
    rcases hb with (hb | hb) | hb
    · exact hmdbB b hb
    · exact Hf.hash_bytes _ b hb
    · omega
  refine ⟨hlen, hbytes, ?_⟩
  have hne : xorBytes (pssDB Hf.hLen ((emBits + 7) / 8) salt)
      (mgf1 Hf (pssH Hf mH salt) ((emBits + 7) / 8 - Hf.hLen - 1)) ≠ [] := by
    apply List.ne_nil_of_length_pos
    rw [hxor]
    omega
  have hhead := clearHighBits_headD (8 * ((emBits + 7) / 8) - emBits) _ hne
  cases hmdx : clearHighBits (8 * ((emBits + 7) / 8) - emBits)
      (xorBytes (pssDB Hf.hLen ((emBits + 7) / 8) salt)
        (mgf1 Hf (pssH Hf mH salt) ((emBits + 7) / 8 - Hf.hLen - 1))) with
  | nil => rw [hmdx] at hmdbL; simp at hmdbL; omega
  | cons c0 ct =>
    rw [hmdx] at hhead hmdbL hmdbB
    simp only [List.headD_cons] at hhead
    have hemc : em = c0 :: (ct ++ (pssH Hf mH salt ++ [188])) := by
      rw [hem, hmdx]
      simp
    have hrest : ∀ b ∈ ct ++ (pssH Hf mH salt ++ [188]), b < 256 := by
      intro b hb
      simp only [List.mem_append, List.mem_singleton] at hb
      rcases hb with hb | hb | hb
      · exact hmdbB b (by simp [hb])
      · exact Hf.hash_bytes _ b hb
      · omega
    have hv := OS2IP_cons_lt c0 (ct ++ (pssH Hf mH salt ++ [188]))
      (8 - (8 * ((emBits + 7) / 8) - emBits)) hhead hrest
    rw [← hemc] at hv
    have hrl : (ct ++ (pssH Hf mH salt ++ [188])).length
        = (emBits + 7) / 8 - 1 := by
      have := hlen
      rw [hemc] at this
      simp only [List.length_cons] at this
      omega
    rw [hrl] at hv
    have hpow : (2 : Nat) ^ (8 - (8 * ((emBits + 7) / 8) - emBits))
        * 256 ^ ((emBits + 7) / 8 - 1) = 2 ^ emBits := by
      rw [show (256 : Nat) = 2 ^ 8 by norm_num, ← pow_mul, ← pow_add]
      congr 1
      omega
    rw [hpow] at hv
    exact hv

/-- Verifying an EMSA-PSS encoding produced with salt `salt` and digest
`mH` against an arbitrary digest `mH2` reduces to the final hash
comparison, with the signer's salt recovered exactly. -/
theorem emsa_verify_encoded (Hf : HashFunc) (mH mH2 salt : List Nat)
    (emBits : Nat) (em : List Nat) (hsalt : ∀ b ∈ salt, b < 256)
    (henc : emsa_pss_encode Hf mH salt emBits = some em) :
    emsa_pss_verify Hf mH2 em emBits
      = (Hf.hash (List.replicate 8 0 ++ mH2 ++ salt) == pssH Hf mH salt) := by
  obtain ⟨hle, hem⟩ := (encode_eq_some Hf mH salt emBits em).mp henc
  obtain ⟨hlen, hbytes, hval⟩ := encode_shape Hf mH salt emBits em hsalt henc
  have hLpos := Hf.hLen_pos
  have hdm8 := Nat.div_add_mod (emBits + 7) 8
  have hm8 := Nat.mod_lt (emBits + 7) (show 0 < 8 by norm_num)
  have hdb := pssDB_length Hf.hLen ((emBits + 7) / 8) salt hle
  have hmask := mgf1_length Hf (pssH Hf mH salt) ((emBits + 7) / 8 - Hf.hLen - 1)
  have hxor : (xorBytes (pssDB Hf.hLen ((emBits + 7) / 8) salt)
      (mgf1 Hf (pssH Hf mH salt) ((emBits + 7) / 8 - Hf.hLen - 1))).length
      = (emBits + 7) / 8 - Hf.hLen - 1 := by
    rw [xorBytes_length, hdb, hmask, Nat.min_self]
  have hAlen : (clearHighBits (8 * ((emBits + 7) / 8) - emBits)
      (xorBytes (pssDB Hf.hLen ((emBits + 7) / 8) salt)
        (mgf1 Hf (pssH Hf mH salt) ((emBits + 7) / 8 - Hf.hLen - 1)))).length
      = (emBits + 7) / 8 - Hf.hLen - 1 := by
    rw [clearHighBits_length, hxor]
  have hHlen : (pssH Hf mH salt).length = Hf.hLen := Hf.hash_length _
  have h1 : ¬(em.length ≠ (emBits + 7) / 8) := by simp [hlen]
  have h2 : ¬((emBits + 7) / 8 < Hf.hLen + 2) := by omega
  have h3 : em.getLast? = some 188 := by
    rw [hem]
    exact List.getLast?_concat _
  have hne : xorBytes (pssDB Hf.hLen ((emBits + 7) / 8) salt)
      (mgf1 Hf (pssH Hf mH salt) ((emBits + 7) / 8 - Hf.hLen - 1)) ≠ [] := by
    apply List.ne_nil_of_length_pos
    rw [hxor]
    omega
  have h5 := clearHighBits_headD (8 * ((emBits + 7) / 8) - emBits) _ hne
  have hdbhead : (pssDB Hf.hLen ((emBits + 7) / 8) salt).headD 0
      < 2 ^ (8 - (8 * ((emBits + 7) / 8) - emBits)) := by
    have hh := pssDB_headD Hf.hLen ((emBits + 7) / 8) salt
    have hp : (2 : Nat) ^ 1 ≤ 2 ^ (8 - (8 * ((emBits + 7) / 8) - emBits)) :=
      Nat.pow_le_pow_right (by norm_num) (by omega)
    simp only [pow_one] at hp
    omega
  simp only [emsa_pss_verify]
  rw [if_neg h1, if_neg h2, if_neg (by simp [h3])]
  rw [hem, List.append_assoc]
  rw [List.take_left' hAlen, List.drop_left' hAlen, List.take_left' hHlen]
  rw [if_neg (not_le.mpr h5)]
  rw [unmask_roundtrip (8 * ((emBits + 7) / 8) - emBits)
    (pssDB Hf.hLen ((emBits + 7) / 8) salt)
    (mgf1 Hf (pssH Hf mH salt) ((emBits + 7) / 8 - Hf.hLen - 1))
    (by rw [hdb, hmask]) hdbhead]
  simp only [pssDB, List.append_assoc, List.singleton_append]
  rw [dropWhile_replicate_zero]
  simp

/-- Decoding lemma: verifying (with the matching public key) a signature
that a valid key produced over message `M` with salt `salt`, against an
arbitrary message `M2`, reduces exactly to the final EMSA-PSS hash
comparison with the signer's salt. -/
theorem pssVerify_of_signed (Hf : HashFunc) (k : RSAPriv) (modBits : Nat)
    (M salt sig M2 : List Nat) (hk : validKey k modBits)
    (hsalt : ∀ b ∈ salt, b < 256)
    (hsig : pssSign Hf k modBits M salt = some sig) :
    pssVerify Hf k.public_key modBits M2 sig
      = (Hf.hash (List.replicate 8 0 ++ Hf.hash M2 ++ salt)
          == pssH Hf (Hf.hash M) salt) := by
  cases henc : emsa_pss_encode Hf (Hf.hash M) salt (modBits - 1) with
  | none =>
    simp only [pssSign, henc] at hsig
    exact Option.noConfusion hsig
  | some em =>
    simp only [pssSign, henc, Option.some.injEq] at hsig
    subst hsig
    obtain ⟨hshape_len, hshape_bytes, hshape_val⟩ :=
      encode_shape Hf (Hf.hash M) salt (modBits - 1) em hsalt henc
    have hkn_pos : 0 < k.n := by
      obtain ⟨hp, hq, _, hnpq, _, _, _⟩ := hk
      have hp2 := ((isPrime_iff _).mp hp).two_le
      have hq2 := ((isPrime_iff _).mp hq).two_le
      rw [hnpq]
      exact Nat.mul_pos (by omega) (by omega)
    have hm_lt_n : OS2IP em < k.n := by
      obtain ⟨_, _, _, _, hlow, _, _⟩ := hk
      calc OS2IP em < 2 ^ (modBits - 1) := hshape_val
        _ ≤ k.n := hlow
    have hs_lt : powMod (OS2IP em) k.d k.n < k.n := powMod_lt _ _ _ hkn_pos
    have hs_lt256 : powMod (OS2IP em) k.d k.n < 256 ^ ((modBits + 7) / 8) := by
      obtain ⟨_, _, _, _, _, hhigh, _⟩ := hk
      have hdm := Nat.div_add_mod (modBits + 7) 8
      have hmod := Nat.mod_lt (modBits + 7) (show 0 < 8 by norm_num)
      have h2 : (2 : Nat) ^ modBits ≤ 2 ^ (8 * ((modBits + 7) / 8)) :=
        Nat.pow_le_pow_right (by norm_num) (by omega)
      have h3 : (2 : Nat) ^ (8 * ((modBits + 7) / 8))
          = 256 ^ ((modBits + 7) / 8) := by
        rw [show (256 : Nat) = 2 ^ 8 by norm_num, ← pow_mul]
      omega
    have hos : OS2IP (I2OSP (powMod (OS2IP em) k.d k.n) ((modBits + 7) / 8))
        = powMod (OS2IP em) k.d k.n := OS2IP_I2OSP _ _ hs_lt256
    have hrec : powMod (powMod (OS2IP em) k.d k.n) k.e k.n = OS2IP em :=
      rsa_roundtrip k modBits hk _ hm_lt_n
    have hm256 : OS2IP em < 256 ^ ((modBits - 1 + 7) / 8) := by
      have hdm := Nat.div_add_mod (modBits - 1 + 7) 8
      have h2 : (2 : Nat) ^ (modBits - 1) ≤ 2 ^ (8 * ((modBits - 1 + 7) / 8)) :=
        Nat.pow_le_pow_right (by norm_num) (by omega)
      have h3 : (2 : Nat) ^ (8 * ((modBits - 1 + 7) / 8))
          = 256 ^ ((modBits - 1 + 7) / 8) := by
        rw [show (256 : Nat) = 2 ^ 8 by norm_num, ← pow_mul]
      omega
    have hdec : decodeEM (RSAPub.mk k.n k.e) modBits
        (I2OSP (powMod (OS2IP em) k.d k.n) ((modBits + 7) / 8)) = em := by
      simp only [decodeEM]
      rw [hos, hrec, ← hshape_len]
      exact I2OSP_OS2IP em hshape_bytes
    simp only [pssVerify, RSAPriv.public_key]
    rw [if_neg (by simp [I2OSP_length])]
    rw [if_neg (by rw [hos]; omega)]
    rw [if_neg (by rw [hos, hrec]; omega)]
    rw [hdec]
    exact emsa_verify_encoded Hf (Hf.hash M) (Hf.hash M2) salt (modBits - 1)
      em hsalt henc

/-- A produced signature always has exactly `(modBits + 7) / 8` bytes,
whatever the message, the salt and the key. -/
theorem pssSign_length (Hf : HashFunc) (k : RSAPriv) (modBits : Nat)
    (msg salt sig : List Nat) (h : pssSign Hf k modBits msg salt = some sig) :
    sig.length = (modBits + 7) / 8 := by
  cases henc : emsa_pss_encode Hf (Hf.hash msg) salt (modBits - 1) with
  | none =>
    simp only [pssSign, henc] at h
    exact Option.noConfusion h
  | some em =>
    simp only [pssSign, henc, Option.some.injEq] at h
    rw [← h]
    exact I2OSP_length _ _

/-- If the EMSA-PSS check of the decoded encoded message fails, the whole
verification fails, whatever earlier checks do. -/
theorem pssVerify_false_of_emsa_false (Hf : HashFunc) (pk : RSAPub)
    (modBits : Nat) (M sig : List Nat)
    (h : emsa_pss_verify Hf (Hf.hash M) (decodeEM pk modBits sig)
      (modBits - 1) = false) :
    pssVerify Hf pk modBits M sig = false := by
  simp only [pssVerify]
  by_cases c1 : sig.length ≠ (modBits + 7) / 8
  · rw [if_pos c1]
  · rw [if_neg c1]
    by_cases c2 : pk.n ≤ OS2IP sig
    · rw [if_pos c2]
    · rw [if_neg c2]
      by_cases c3 : 256 ^ ((modBits - 1 + 7) / 8)
          ≤ powMod (OS2IP sig) pk.e pk.n
      · rw [if_pos c3]
      · rw [if_neg c3]
        exact h

/-- Distinct salts of the same length produce byte-distinct signatures
under a valid key: the PSS encoding, and hence the RSA image, is
injective in the salt. -/
theorem pssSign_inj_salt (Hf : HashFunc) (k : RSAPriv) (modBits : Nat)
    (M s1 s2 sig1 sig2 : List Nat) (hk : validKey k modBits)
    (hb1 : ∀ b ∈ s1, b < 256) (hb2 : ∀ b ∈ s2, b < 256)
    (hlen : s1.length = s2.length) (hne : s1 ≠ s2)
    (h1 : pssSign Hf k modBits M s1 = some sig1)
    (h2 : pssSign Hf k modBits M s2 = some sig2) : sig1 ≠ sig2 := by
  cases henc1 : emsa_pss_encode Hf (Hf.hash M) s1 (modBits - 1) with
  | none => simp only [pssSign, henc1] at h1; exact Option.noConfusion h1
  | some em1 =>
  cases henc2 : emsa_pss_encode Hf (Hf.hash M) s2 (modBits - 1) with
  | none => simp only [pssSign, henc2] at h2; exact Option.noConfusion h2
  | some em2 =>
  simp only [pssSign, henc1, Option.some.injEq] at h1
  simp only [pssSign, henc2, Option.some.injEq] at h2
  obtain ⟨hlen1, hbytes1, hval1⟩ :=
    encode_shape Hf (Hf.hash M) s1 (modBits - 1) em1 hb1 henc1
  obtain ⟨hlen2, hbytes2, hval2⟩ :=
    encode_shape Hf (Hf.hash M) s2 (modBits - 1) em2 hb2 henc2
  have hkn_pos : 0 < k.n := by
    obtain ⟨hp, hq, _, hnpq, _, _, _⟩ := hk
    have hp2 := ((isPrime_iff _).mp hp).two_le
    have hq2 := ((isPrime_iff _).mp hq).two_le
    rw [hnpq]
    exact Nat.mul_pos (by omega) (by omega)
  have hm1 : OS2IP em1 < k.n := by
    obtain ⟨_, _, _, _, hlow, _, _⟩ := hk
    calc OS2IP em1 < 2 ^ (modBits - 1) := hval1
      _ ≤ k.n := hlow
  have hm2 : OS2IP em2 < k.n := by
    obtain ⟨_, _, _, _, hlow, _, _⟩ := hk
    calc OS2IP em2 < 2 ^ (modBits - 1) := hval2
      _ ≤ k.n := hlow
  -- distinct encodings
  have hemne : em1 ≠ em2 := by
    intro heq
    obtain ⟨hle1, hem1⟩ := (encode_eq_some Hf (Hf.hash M) s1 (modBits - 1) em1).mp henc1
    obtain ⟨hle2, hem2⟩ := (encode_eq_some Hf (Hf.hash M) s2 (modBits - 1) em2).mp henc2
    rw [hem1, hem2] at heq
    have hmid := List.append_cancel_right heq
    have hA1 : (clearHighBits (8 * ((modBits - 1 + 7) / 8) - (modBits - 1))
        (xorBytes (pssDB Hf.hLen ((modBits - 1 + 7) / 8) s1)
          (mgf1 Hf (pssH Hf (Hf.hash M) s1)
            ((modBits - 1 + 7) / 8 - Hf.hLen - 1)))).length
        = (modBits - 1 + 7) / 8 - Hf.hLen - 1 := by
      rw [clearHighBits_length, xorBytes_length,
        pssDB_length _ _ _ hle1, mgf1_length, Nat.min_self]
    have hA2 : (clearHighBits (8 * ((modBits - 1 + 7) / 8) - (modBits - 1))
        (xorBytes (pssDB Hf.hLen ((modBits - 1 + 7) / 8) s2)
          (mgf1 Hf (pssH Hf (Hf.hash M) s2)
            ((modBits - 1 + 7) / 8 - Hf.hLen - 1)))).length
        = (modBits - 1 + 7) / 8 - Hf.hLen - 1 := by
      rw [clearHighBits_length, xorBytes_length,
        pssDB_length _ _ _ hle2, mgf1_length, Nat.min_self]
    obtain ⟨hAeq, hHeq⟩ := List.append_inj hmid (by rw [hA1, hA2])
    -- same H, hence same mask; unmask both sides
    have hz7 : 8 * ((modBits - 1 + 7) / 8) - (modBits - 1) ≤ 7 := by
      have hdm8 := Nat.div_add_mod (modBits - 1 + 7) 8
      have hm8 := Nat.mod_lt (modBits - 1 + 7) (show 0 < 8 by norm_num)
      omega
    have hpw : (2 : Nat) ^ 1
        ≤ 2 ^ (8 - (8 * ((modBits - 1 + 7) / 8) - (modBits - 1))) :=
      Nat.pow_le_pow_right (by norm_num) (by omega)
    have hdb1 := unmask_roundtrip (8 * ((modBits - 1 + 7) / 8) - (modBits - 1))
      (pssDB Hf.hLen ((modBits - 1 + 7) / 8) s1)
      (mgf1 Hf (pssH Hf (Hf.hash M) s1) ((modBits - 1 + 7) / 8 - Hf.hLen - 1))
      (by rw [pssDB_length _ _ _ hle1, mgf1_length])
      (by have := pssDB_headD Hf.hLen ((modBits - 1 + 7) / 8) s1
          simp only [pow_one] at hpw
          omega)
    have hdb2 := unmask_roundtrip (8 * ((modBits - 1 + 7) / 8) - (modBits - 1))
      (pssDB Hf.hLen ((modBits - 1 + 7) / 8) s2)
      (mgf1 Hf (pssH Hf (Hf.hash M) s2) ((modBits - 1 + 7) / 8 - Hf.hLen - 1))
      (by rw [pssDB_length _ _ _ hle2, mgf1_length])
      (by have := pssDB_headD Hf.hLen ((modBits - 1 + 7) / 8) s2
          simp only [pow_one] at hpw
          omega)
    have hdbeq : pssDB Hf.hLen ((modBits - 1 + 7) / 8) s1
        = pssDB Hf.hLen ((modBits - 1 + 7) / 8) s2 := by
      rw [← hdb1, hAeq, hHeq]
      exact hdb2
    simp only [pssDB, hlen] at hdbeq
    have := List.append_cancel_left hdbeq
    exact hne this
  -- distinct values, distinct RSA images, distinct signatures
  intro hss
  apply hemne
  apply OS2IP_inj em1 em2 hbytes1 hbytes2 (by rw [hlen1, hlen2])
  apply powMod_d_inj k modBits hk _ _ hm1 hm2
  have hslt1 : powMod (OS2IP em1) k.d k.n < 256 ^ ((modBits + 7) / 8) := by
    obtain ⟨_, _, _, _, _, hhigh, _⟩ := hk
    have hs := powMod_lt (OS2IP em1) k.d k.n hkn_pos
    have hdm := Nat.div_add_mod (modBits + 7) 8
    have hmod := Nat.mod_lt (modBits + 7) (show 0 < 8 by norm_num)
    have hpow2 : (2 : Nat) ^ modBits ≤ 2 ^ (8 * ((modBits + 7) / 8)) :=
      Nat.pow_le_pow_right (by norm_num) (by omega)
    have hpe : (2 : Nat) ^ (8 * ((modBits + 7) / 8))
        = 256 ^ ((modBits + 7) / 8) := by
      rw [show (256 : Nat) = 2 ^ 8 by norm_num, ← pow_mul]
    omega
  have hslt2 : powMod (OS2IP em2) k.d k.n < 256 ^ ((modBits + 7) / 8) := by
    obtain ⟨_, _, _, _, _, hhigh, _⟩ := hk
    have hs := powMod_lt (OS2IP em2) k.d k.n hkn_pos
    have hdm := Nat.div_add_mod (modBits + 7) 8
    have hmod := Nat.mod_lt (modBits + 7) (show 0 < 8 by norm_num)
    have hpow2 : (2 : Nat) ^ modBits ≤ 2 ^ (8 * ((modBits + 7) / 8)) :=
      Nat.pow_le_pow_right (by norm_num) (by omega)
    have hpe : (2 : Nat) ^ (8 * ((modBits + 7) / 8))
        = 256 ^ ((modBits + 7) / 8) := by
      rw [show (256 : Nat) = 2 ^ 8 by norm_num, ← pow_mul]
    omega
  apply I2OSP_inj ((modBits + 7) / 8) _ _ hslt1 hslt2
  rw [h1, h2, hss]

/-- C1: for every valid freshly generated RSA key pair and every message,
verifying with the pair's public key the signature produced by signing the
message with its private key under PSS (MGF1 over the hash, maximal salt
length, so the salt has length `emLen - hLen - 2`) succeeds.  Stated for
every hash function, hence in particular for SHA-256, and for every
message, hence in particular for the script's concrete message. -/
theorem claimC1_sign_then_verify_succeeds (Hf : HashFunc) (k : RSAPriv)
    (modBits : Nat) (M salt sig : List Nat)
    (hk : validKey k modBits)
    (hsalt : ∀ b ∈ salt, b < 256)
    (hmax : salt.length = (modBits - 1 + 7) / 8 - Hf.hLen - 2)
    (hsig : pssSign Hf k modBits M salt = some sig) :
    pssVerify Hf k.public_key modBits M sig = true := by
  rw [pssVerify_of_signed Hf k modBits M salt sig M hk hsalt hsig]
  simp [pssH]

/-- Witness for C1 at a concrete valid 26-bit key, the script's message
and a maximal-length salt. -/
theorem claimC1_witness :
    pssVerify toyHashF witKey.public_key witModBits script_message
      [1, 199, 6, 184] = true :=
  claimC1_sign_then_verify_succeeds toyHashF witKey witModBits script_message
    witSalt [1, 199, 6, 184] (by decide) (by decide) (by decide) (by decide)

/-- C2: for a valid key pair and byte-distinct messages, verifying the
signature of the first message against the second fails, under the
cryptographically overwhelming non-collision hypothesis that the two
EMSA-PSS inner hash values differ (the spec itself states the property as
holding with overwhelming probability only). -/
theorem claimC2_tampered_verify_fails (Hf : HashFunc) (k : RSAPriv)
    (modBits : Nat) (M M2 salt sig : List Nat)
    (hk : validKey k modBits)
    (hsalt : ∀ b ∈ salt, b < 256)
    (hMM : M ≠ M2)
    (hsig : pssSign Hf k modBits M salt = some sig)
    (hhash : Hf.hash (List.replicate 8 0 ++ Hf.hash M2 ++ salt)
      ≠ Hf.hash (List.replicate 8 0 ++ Hf.hash M ++ salt)) :
    pssVerify Hf k.public_key modBits M2 sig = false := by
  rw [pssVerify_of_signed Hf k modBits M salt sig M2 hk hsalt hsig]
  rw [pssH]
  exact beq_eq_false_iff_ne.mpr hhash

/-- Witness for C2 at the script's concrete original and tampered
messages, with a concrete valid key. -/
theorem claimC2_witness :
    pssVerify toyHashF witKey.public_key witModBits script_message_altered
      [1, 199, 6, 184] = false :=
  claimC2_tampered_verify_fails toyHashF witKey witModBits script_message
    script_message_altered witSalt [1, 199, 6, 184] (by decide) (by decide)
    (by decide) (by decide) (by decide)

/-- C3: every signature the script's signing operation produces with its
2048-bit key has exactly 256 bytes, for every message and salt. -/
theorem claimC3_signature_length_256 (Hf : HashFunc) (k : RSAPriv)
    (msg salt sig : List Nat)
    (hsig : pssSign Hf k 2048 msg salt = some sig) :
    sig.length = 256 := by
  have h := pssSign_length Hf k 2048 msg salt sig hsig
  norm_num at h
  exact h

/-- Witness for C3: a concrete 2048-bit signing call produces a 256-byte
signature. -/
theorem claimC3_witness : witSig2048.length = 256 :=
  claimC3_signature_length_256 toyHashF junkKey script_message [] witSig2048
    (by rfl)

/-- C4: the exceptions of either verification call are caught locally and
turned into a printed diagnostic line, and the script always reaches the
final completion line: for every signature preview and every pair of
verification outcomes, the last printed line is the completion line, a
failure of the first verification is reported (as a diagnostic line) but
not fatal, and likewise for the second. -/
theorem claimC4_run_completes (preview : List Nat)
    (v1 v2 : Except PyExn Unit) :
    (scriptLines preview v1 v2).getLast? = some ScriptLine.completed ∧
    (∀ e, v1 = Except.error e →
      ScriptLine.verifyError e ∈ scriptLines preview v1 v2) ∧
    (∀ e, v2 = Except.error e →
      ScriptLine.tamperedRejected e ∈ scriptLines preview v1 v2) := by
  refine ⟨?_, ?_, ?_⟩
  · cases v1 <;> cases v2 <;> rfl
  · intro e he
    subst he
    cases v2 <;> simp [scriptLines, tryExcept, exceptException]
  · intro e he
    subst he
    cases v1 <;> simp [scriptLines, tryExcept, exceptException]

/-- C5: the key generator is called exactly once, with public exponent
65537 and key size 2048 bits; the signing call uses that generated key,
and the public key used by both verification calls is derived from the
exact private key used for signing. -/
theorem claimC5_keygen_once_matched_pair (Hf : HashFunc)
    (gen : Nat → Nat → RSAPriv) (salt : List Nat)
    (tr : ScriptTrace) (st : ScriptState)
    (h : runScript Hf gen salt = some (tr, st)) :
    tr.genCalls = [(65537, 2048)] ∧
    tr.signKeys = [gen 65537 2048] ∧
    st.private_key = gen 65537 2048 ∧
    st.public_key = (gen 65537 2048).public_key ∧
    tr.verifyCalls.map VerifyCall.pk
      = [(gen 65537 2048).public_key, (gen 65537 2048).public_key] := by
  cases hsig : pssSign Hf (gen script_public_exponent script_key_size)
      script_key_size script_message salt with
  | none =>
    simp only [runScript, hsig] at h
    exact Option.noConfusion h
  | some signature =>
    simp only [runScript, hsig, Option.some.injEq] at h
    injection h with h1 h2
    subst h1
    subst h2
    exact ⟨rfl, rfl, rfl, rfl, rfl⟩

/-- Witness for C5 on a concrete full run of the embedded script. -/
theorem claimC5_witness :
    runW.1.genCalls = [(65537, 2048)] ∧
    runW.1.signKeys = [junkGen 65537 2048] ∧
    runW.2.private_key = junkGen 65537 2048 ∧
    runW.2.public_key = (junkGen 65537 2048).public_key ∧
    runW.1.verifyCalls.map VerifyCall.pk
      = [(junkGen 65537 2048).public_key, (junkGen 65537 2048).public_key] :=
  claimC5_keygen_once_matched_pair toyHashF junkGen [] runW.1 runW.2 (by rfl)

/-- C6: signing is randomised in its output bytes: for a fixed valid key
and fixed message, signing with two distinct salts of the same length
yields byte-distinct signatures, yet each of the two signatures
independently verifies against the message with the matching public
key. -/
theorem claimC6_pss_randomized (Hf : HashFunc) (k : RSAPriv) (modBits : Nat)
    (M s1 s2 sig1 sig2 : List Nat) (hk : validKey k modBits)
    (hb1 : ∀ b ∈ s1, b < 256) (hb2 : ∀ b ∈ s2, b < 256)
    (hlen : s1.length = s2.length) (hne : s1 ≠ s2)
    (h1 : pssSign Hf k modBits M s1 = some sig1)
    (h2 : pssSign Hf k modBits M s2 = some sig2) :
    sig1 ≠ sig2 ∧
    pssVerify Hf k.public_key modBits M sig1 = true ∧
    pssVerify Hf k.public_key modBits M sig2 = true := by
  refine ⟨pssSign_inj_salt Hf k modBits M s1 s2 sig1 sig2 hk hb1 hb2 hlen hne
    h1 h2, ?_, ?_⟩
  · rw [pssVerify_of_signed Hf k modBits M s1 sig1 M hk hb1 h1]
    simp [pssH]
  · rw [pssVerify_of_signed Hf k modBits M s2 sig2 M hk hb2 h2]
    simp [pssH]

/-- Witness for C6: two concrete salts give two byte-distinct signatures
over the script's message, both verifying. -/
theorem claimC6_witness :
    [1, 199, 6, 184] ≠ [0, 69, 107, 48] ∧
    pssVerify toyHashF witKey.public_key witModBits script_message
      [1, 199, 6, 184] = true ∧
    pssVerify toyHashF witKey.public_key witModBits script_message
      [0, 69, 107, 48] = true :=
  claimC6_pss_randomized toyHashF witKey witModBits script_message
    witSalt witSaltB [1, 199, 6, 184] [0, 69, 107, 48] (by decide) (by decide)
    (by decide) (by decide) (by decide) (by decide) (by decide)

/-- C7: verifying with a second, independently generated key pair's public
key a signature produced by the first pair's private key fails, under the
cryptographically overwhelming non-coincidence hypothesis that the
encoded message recovered with the second public key is not a valid
EMSA-PSS encoding of the message. -/
theorem claimC7_cross_key_verify_fails (Hf : HashFunc) (k k2 : RSAPriv)
    (modBits : Nat) (M salt sig : List Nat)
    (hk : validKey k modBits) (hk2 : validKey k2 modBits)
    (hsig : pssSign Hf k modBits M salt = some sig)
    (hcoincidence : emsa_pss_verify Hf (Hf.hash M)
      (decodeEM k2.public_key modBits sig) (modBits - 1) = false) :
    pssVerify Hf k2.public_key modBits M sig = false :=
  pssVerify_false_of_emsa_false Hf k2.public_key modBits M sig hcoincidence

/-- Witness for C7 with two concrete, distinct valid key pairs. -/
theorem claimC7_witness :
    pssVerify toyHashF witKey2.public_key witModBits script_message
      [1, 199, 6, 184] = false :=
  claimC7_cross_key_verify_fails toyHashF witKey witKey2 witModBits
    script_message witSalt [1, 199, 6, 184] (by decide) (by decide)
    (by decide) (by decide)

/-- C8: verification is a pure decision with no side effects: after both
verification calls, the script's state holds exactly the key pair,
message and signature computed before them; both verification calls read
exactly those values; and the library verification's only observable
outcome is pass (no exception) or fail (an `InvalidSignature`
exception). -/
theorem claimC8_verification_pure (Hf : HashFunc)
    (gen : Nat → Nat → RSAPriv) (salt : List Nat)
    (tr : ScriptTrace) (st : ScriptState)
    (h : runScript Hf gen salt = some (tr, st)) :
    (st.private_key = gen 65537 2048 ∧
     st.public_key = (gen 65537 2048).public_key ∧
     st.message = script_message ∧
     pssSign Hf (gen 65537 2048) 2048 script_message salt
       = some st.signature) ∧
    tr.verifyCalls = [VerifyCall.mk st.public_key st.message st.signature,
      VerifyCall.mk st.public_key script_message_altered st.signature] ∧
    (∀ (pk : RSAPub) (m s : List Nat),
      libVerify Hf pk 2048 m s = Except.ok () ∨
      libVerify Hf pk 2048 m s = Except.error PyExn.invalidSignature) := by
  refine ⟨?_, ?_, ?_⟩
  · cases hsig : pssSign Hf (gen script_public_exponent script_key_size)
        script_key_size script_message salt with
    | none =>
      simp only [runScript, hsig] at h
      exact Option.noConfusion h
    | some signature =>
      simp only [runScript, hsig, Option.some.injEq] at h
      injection h with h1 h2
      subst h1
      subst h2
      exact ⟨rfl, rfl, rfl, hsig⟩
  · cases hsig : pssSign Hf (gen script_public_exponent script_key_size)
        script_key_size script_message salt with
    | none =>
      simp only [runScript, hsig] at h
      exact Option.noConfusion h
    | some signature =>
      simp only [runScript, hsig, Option.some.injEq] at h
      injection h with h1 h2
      subst h1
      subst h2
      rfl
  · intro pk m s
    cases hpv : pssVerify Hf pk 2048 m s with
    | true => left; simp [libVerify, hpv]
    | false => right; simp [libVerify, hpv]

/-- Witness for C8 on a concrete full run of the embedded script. -/
theorem claimC8_witness :
    (runW.2.private_key = junkGen 65537 2048 ∧
     runW.2.public_key = (junkGen 65537 2048).public_key ∧
     runW.2.message = script_message ∧
     pssSign toyHashF (junkGen 65537 2048) 2048 script_message []
       = some runW.2.signature) ∧
    runW.1.verifyCalls
      = [VerifyCall.mk runW.2.public_key runW.2.message runW.2.signature,
         VerifyCall.mk runW.2.public_key script_message_altered
           runW.2.signature] ∧
    (∀ (pk : RSAPub) (m s : List Nat),
      libVerify toyHashF pk 2048 m s = Except.ok () ∨
      libVerify toyHashF pk 2048 m s = Except.error PyExn.invalidSignature) :=
  claimC8_verification_pure toyHashF junkGen [] runW.1 runW.2 (by rfl)

/-- C9: both verification handlers catch the broadest exception class:
every exception value is caught by the `except Exception` clause, and
every caught exception is routed to the same single diagnostic branch,
with no distinction between an invalid-signature error and any other
error. -/
theorem claimC9_broad_except_uniform (e : PyExn) (okL : ScriptLine)
    (errL : PyExn → ScriptLine) :
    exceptException e = true ∧
    tryExcept (Except.error e) exceptException okL errL
      = Except.ok (errL e) :=
  ⟨rfl, rfl⟩

/-- C10: the signature preview the script prints is exactly the first 30
bytes of the signature, a strict prefix of the 256-byte signature and
never the whole signature, for every signature the signing call can
produce. -/
theorem claimC10_preview_strict_prefix (Hf : HashFunc)
    (gen : Nat → Nat → RSAPriv) (salt : List Nat)
    (tr : ScriptTrace) (st : ScriptState)
    (h : runScript Hf gen salt = some (tr, st)) :
    ScriptLine.signaturePreview (st.signature.take 30) ∈ tr.lines ∧
    (st.signature.take 30).length = 30 ∧
    st.signature.take 30 ++ st.signature.drop 30 = st.signature ∧
    st.signature.take 30 ≠ st.signature := by
  cases hsig : pssSign Hf (gen script_public_exponent script_key_size)
      script_key_size script_message salt with
  | none =>
    simp only [runScript, hsig] at h
    exact Option.noConfusion h
  | some signature =>
    simp only [runScript, hsig, Option.some.injEq] at h
    injection h with h1 h2
    subst h1
    subst h2
    have hlen : signature.length = 256 := by
      have hl := pssSign_length Hf (gen script_public_exponent script_key_size)
        script_key_size script_message salt signature hsig
      norm_num [script_key_size] at hl
      exact hl
    refine ⟨?_, ?_, List.take_append_drop 30 signature, ?_⟩
    · simp [scriptLines]
    · rw [List.length_take, hlen]
      omega
    · intro heq
      have hcl := congrArg List.length heq
      rw [List.length_take, hlen] at hcl
      simp at hcl

/-- Witness for C10 on a concrete full run of the embedded script. -/
theorem claimC10_witness :
    ScriptLine.signaturePreview (runW.2.signature.take 30) ∈ runW.1.lines ∧
    (runW.2.signature.take 30).length = 30 ∧
    runW.2.signature.take 30 ++ runW.2.signature.drop 30
      = runW.2.signature ∧
    runW.2.signature.take 30 ≠ runW.2.signature :=
  claimC10_preview_strict_prefix toyHashF junkGen [] runW.1 runW.2 (by rfl)
